import Mathlib

/-!
Verification development for the pealim-scraper extraction and
normalization core.

The TypeScript sources are shallowly embedded here:

* JavaScript strings are modelled as `List Char` (sequences of code
  points; the code manipulates only BMP text, where JS UTF-16 code
  units and code points coincide).
* The parsed HTML document handled through cheerio is modelled by the
  inductive tree `DomNode`; a cheerio selection narrowed by `.first()`
  is modelled by `Option DomNode` (an empty selection is `none`, and
  text extraction on an empty selection yields the empty string, as in
  cheerio).
* JS numbers holding character indices are modelled by `Int`.

Every definition is translated from the repository sources
(`parse-html-to-json`, `parse-json-to-html`, the `POST` route); the
only exception, marked in its doc comment, is the constant `TILDE`
whose defining file (`app/constants`) is not among the sources and is
modelled from the specification.
-/

namespace Pealim

/-- Whitespace test used by the model of `String.prototype.trim`
(space, tab, line feed, carriage return, vertical tab, form feed). -/
def isWsChar (c : Char) : Bool :=
  c = ' ' || c = '\t' || c = '\n' || c = '\r' || c = '\x0b' || c = '\x0c'

/-- Model of JavaScript `String.prototype.trim`: drop whitespace from
both ends. -/
def jsTrim (s : List Char) : List Char :=
  ((s.dropWhile isWsChar).reverse.dropWhile isWsChar).reverse

/-- Does `pat` occur as a prefix of `s`?  (Helper for the model of
`String.prototype.includes`.) -/
def hasPrefixCL : List Char → List Char → Bool
  | [], _ => true
  | _ :: _, [] => false
  | p :: ps, c :: cs => p = c && hasPrefixCL ps cs

/-- Model of JavaScript `String.prototype.includes`: does `pat` occur
as a contiguous subsequence of `s`? -/
def containsSeq (pat : List Char) : List Char → Bool
  | [] => hasPrefixCL pat []
  | c :: cs => hasPrefixCL pat (c :: cs) || containsSeq pat cs

/-- Model of JavaScript `String.prototype.split` with a one-character
separator: `"a~b".split("~")` is `["a", "b"]`, `"".split("~")` is
`[""]`, and a leading/trailing separator produces an empty segment. -/
def splitOnChar (sep : Char) : List Char → List (List Char)
  | [] => [[]]
  | c :: rest =>
    let r := splitOnChar sep rest
    if c = sep then [] :: r
    else
      match r with
      | [] => [[c]]
      | h :: t => (c :: h) :: t

/-! ### The document tree

`DomNode` models the parsed HTML tree that cheerio exposes: a node is
either a text node carrying character data or an element carrying a
tag name, an `id` attribute, a class list and children.  These are the
only features the scraper consults. -/

/-- A node of the parsed document tree. -/
inductive DomNode : Type where
  | text (data : List Char) : DomNode
  | elem (tag : String) (idAttr : String) (classes : List String)
      (children : List DomNode) : DomNode

mutual

/-- Decidable structural equality of document nodes (stands in for the
JavaScript `===` identity test on nodes of one parsed document). -/
def deqDom : (a b : DomNode) → Decidable (a = b)
  | .text s, .text t =>
    match decEq s t with
    | isTrue h => isTrue (congrArg DomNode.text h)
    | isFalse h => isFalse fun hh => h (by cases hh; rfl)
  | .text _, .elem _ _ _ _ => isFalse fun hh => by cases hh
  | .elem _ _ _ _, .text _ => isFalse fun hh => by cases hh
  | .elem t1 i1 c1 ch1, .elem t2 i2 c2 ch2 =>
    match decEq t1 t2 with
    | isFalse h => isFalse fun hh => h (by cases hh; rfl)
    | isTrue h1 =>
      match decEq i1 i2 with
      | isFalse h => isFalse fun hh => h (by cases hh; rfl)
      | isTrue h2 =>
        match decEq c1 c2 with
        | isFalse h => isFalse fun hh => h (by cases hh; rfl)
        | isTrue h3 =>
          match deqDomList ch1 ch2 with
          | isFalse h => isFalse fun hh => h (by cases hh; rfl)
          | isTrue h4 => isTrue (by rw [h1, h2, h3, h4])

/-- Decidable structural equality of node lists. -/
def deqDomList : (a b : List DomNode) → Decidable (a = b)
  | [], [] => isTrue rfl
  | [], _ :: _ => isFalse fun hh => by cases hh
  | _ :: _, [] => isFalse fun hh => by cases hh
  | x :: xs, y :: ys =>
    match deqDom x y with
    | isFalse h => isFalse fun hh => h (by cases hh; rfl)
    | isTrue h1 =>
      match deqDomList xs ys with
      | isFalse h => isFalse fun hh => h (by cases hh; rfl)
      | isTrue h2 => isTrue (by rw [h1, h2])

end

instance : DecidableEq DomNode := deqDom

namespace DomNode

/-- Tag name of a node (empty for text nodes). -/
def tagOf : DomNode → String
  | .text _ => ""
  | .elem t _ _ _ => t

/-- Value of the `id` attribute (empty for text nodes). -/
def idOf : DomNode → String
  | .text _ => ""
  | .elem _ i _ _ => i

/-- Children of a node (empty for text nodes). -/
def childrenOf : DomNode → List DomNode
  | .text _ => []
  | .elem _ _ _ ch => ch

/-- Does the node carry the given CSS class? -/
def hasClass (n : DomNode) (c : String) : Bool :=
  match n with
  | .text _ => false
  | .elem _ _ classes _ => classes.contains c

/-- Is the node an element? -/
def isElemNode : DomNode → Bool
  | .text _ => false
  | .elem _ _ _ _ => true

end DomNode

mutual

/-- Flattened text of a node, cheerio's `.text()`: the concatenation
of all text data in the subtree, in document order. -/
def textContent : DomNode → List Char
  | .text s => s
  | .elem _ _ _ ch => textContentList ch

/-- Flattened text of a forest of nodes, in order. -/
def textContentList : List DomNode → List Char
  | [] => []
  | n :: rest => textContent n ++ textContentList rest

end

/-- Text of an optional node; an empty cheerio selection yields the
empty string. -/
def optText : Option DomNode → List Char
  | none => []
  | some n => textContent n

mutual

/-- Search a single node for the first matching element, in document
order, returning it with its parent: the node itself when it is an
element satisfying `p` (its parent is the supplied `parent`),
otherwise the first match among its descendants. -/
def findFirstWP (p : DomNode → Bool) (parent : DomNode) : DomNode → Option (DomNode × DomNode)
  | .text _ => none
  | .elem t i cl ch =>
    if p (.elem t i cl ch) then some (.elem t i cl ch, parent)
    else findFirstWPIn p (.elem t i cl ch) ch

/-- Model of `root.find(sel).first()` together with `.parent()` over a
forest `cs` whose common parent is `parent`: the first element in
document order satisfying `p`, paired with its parent node. -/
def findFirstWPIn (p : DomNode → Bool) (parent : DomNode) : List DomNode → Option (DomNode × DomNode)
  | [] => none
  | c :: rest =>
    match findFirstWP p parent c with
    | some r => some r
    | none => findFirstWPIn p parent rest

end

/-- Model of `root.find(sel).first()`: the first element descendant of
`root` satisfying `p` (the root itself is not eligible, as in cheerio). -/
def findFirst (p : DomNode → Bool) (root : DomNode) : Option DomNode :=
  (findFirstWPIn p root root.childrenOf).map Prod.fst

mutual

/-- All matching elements inside one node (the node itself included
when it is an element satisfying `p`), in document order. -/
def findAllNode (p : DomNode → Bool) : DomNode → List DomNode
  | .text _ => []
  | .elem t i cl ch =>
    (if p (.elem t i cl ch) then [DomNode.elem t i cl ch] else []) ++ findAllIn p ch

/-- Model of `root.find(sel)` as a list over the forest `cs`: every
element satisfying `p`, in document order. -/
def findAllIn (p : DomNode → Bool) : List DomNode → List DomNode
  | [] => []
  | c :: rest => findAllNode p c ++ findAllIn p rest

end

mutual

/-- All element nodes of a subtree (the root included when it is an
element), in document order. -/
def elemsOfNode : DomNode → List DomNode
  | .text _ => []
  | .elem t i cl ch => DomNode.elem t i cl ch :: elemsIn ch

/-- All element nodes of a forest, in document order (pre-order). -/
def elemsIn : List DomNode → List DomNode
  | [] => []
  | c :: rest => elemsOfNode c ++ elemsIn rest

end

mutual

/-- Strict ancestors of `target` inside the subtree rooted at `n`,
innermost first and `n` included, when `target` occurs strictly inside
`n`; `some []` when `n` is `target` itself. -/
def pathToNode (target : DomNode) (n : DomNode) : Option (List DomNode) :=
  if n = target then some []
  else
    match n with
    | .text _ => none
    | .elem t i cl ch =>
      match pathToIn target ch with
      | some l => some (l ++ [DomNode.elem t i cl ch])
      | none => none

/-- Strict ancestors of `target` within the forest `cs`, innermost
first, when `target` occurs in the forest. -/
def pathToIn (target : DomNode) : List DomNode → Option (List DomNode)
  | [] => none
  | c :: rest =>
    match pathToNode target c with
    | some l => some l
    | none => pathToIn target rest

end

/-- Model of `target.closest(sel)` inside the tree rooted at `root`:
`target` itself if it matches, otherwise the innermost ancestor
matching `p`. -/
def closestFrom (p : DomNode → Bool) (root target : DomNode) : Option DomNode :=
  if p target then some target
  else (pathToIn target root.childrenOf).bind fun anc => (anc ++ [root]).find? p





/-! ### Form records

`FormData` models the record `\x7b h, hn, t, ti \x7d` produced by
`extractFormData` and pushed for every variation; `Form` additionally
carries the optional `variations` array attached by the route code. -/

/-- A single extracted form: Hebrew without niqqud (`h`), Hebrew with
niqqud (`hn`), transliteration (`t`) and the accent index into the
transliteration (`ti`). -/
structure FormData where
  h : List Char
  hn : List Char
  t : List Char
  ti : Int
  deriving DecidableEq

/-- A form together with its optional list of variations, as assembled
by the `POST` route. -/
structure Form where
  h : List Char
  hn : List Char
  t : List Char
  ti : Int
  variations : Option (List FormData)
  deriving DecidableEq

/-- The all-empty default form a slot is initialised to. -/
def emptyFormValue : Form := { h := [], hn := [], t := [], ti := 0, variations := none }

/-! ### Transliteration normalizer (`parse-html-to-json`, newer
snapshot, and `replaceTzWithCAndAdjustIndex`) -/

/-- Embedding of `replaceChWithKh`: `text.replace(CH_REGEX, 'kh')`,
with `CH_REGEX` the global pattern `ch`, replacing every
non-overlapping occurrence left to right. -/
def replaceChWithKh : List Char → List Char
  | [] => []
  | [c] => [c]
  | c1 :: c2 :: rest =>
    if c1 = 'c' && c2 = 'h' then 'k' :: 'h' :: replaceChWithKh rest
    else c1 :: replaceChWithKh (c2 :: rest)

/-- Embedding of `replaceTzWithC`: `text.replace(TZ_REGEX, 'c')`, with
`TZ_REGEX` the global pattern `tz`, replacing every non-overlapping
occurrence left to right. -/
def replaceTzWithC : List Char → List Char
  | [] => []
  | [c] => [c]
  | c1 :: c2 :: rest =>
    if c1 = 't' && c2 = 'z' then 'c' :: replaceTzWithC rest
    else c1 :: replaceTzWithC (c2 :: rest)

/-- The `while` loop of `replaceTzWithCAndAdjustIndex` collecting every
start index of `tz` in `text`: `indexOf('tz', searchIndex)` resumes one
character after each match start (`searchIndex = index + 1`), so every
position of the string is examined exactly once; this scan checks each
position in turn.  `pos` is the absolute position of the head of `s`. -/
def tzPositionsAux : List Char → Nat → List Nat
  | c1 :: c2 :: rest, pos =>
    if c1 = 't' && c2 = 'z' then pos :: tzPositionsAux (c2 :: rest) (pos + 1)
    else tzPositionsAux (c2 :: rest) (pos + 1)
  | _, _ => []

/-- Start indices of every occurrence of `tz` in `text`. -/
def tzPositions (text : List Char) : List Nat := tzPositionsAux text 0

/-- Embedding of `replaceTzWithCAndAdjustIndex` from
`parse-json-to-html.ts`: collect the `tz` start positions, decrement
the accent index once for every position strictly below it, then
replace globally. -/
def replaceTzWithCAndAdjustIndex (text : List Char) (accentIndex : Int) : List Char × Int :=
  let tzPos := tzPositions text
  let adjustedIndex :=
    tzPos.foldl (fun (adjusted : Int) (tzP : Nat) =>
      if (tzP : Int) < accentIndex then adjusted - 1 else adjusted) accentIndex
  (replaceTzWithC text, adjustedIndex)

/-- Embedding of `removeExclamationMarks`: delete every `!` from the
three text fields (global `replace(/!/g, "")`) and trim, leaving `ti`
untouched, on the form and on each of its variations. -/
def removeExclamationMarks (form : Form) : Form :=
  { form with
    h := jsTrim (form.h.filter (fun c => c != '!'))
    hn := jsTrim (form.hn.filter (fun c => c != '!'))
    t := jsTrim (form.t.filter (fun c => c != '!'))
    variations := form.variations.map (List.map fun variation =>
      { variation with
        h := jsTrim (variation.h.filter (fun c => c != '!'))
        hn := jsTrim (variation.hn.filter (fun c => c != '!'))
        t := jsTrim (variation.t.filter (fun c => c != '!')) }) }

/-- The per-variation transform of the `useChToKh` stage of
`applyTransliterationReplacement`: replace in `t`, keep `ti`. -/
def chVariant (v : FormData) : FormData := { v with t := replaceChWithKh v.t }

/-- The per-variation transform of the `useTzToC` stage of
`applyTransliterationReplacement` (newer snapshot): replace in `t` and
adjust `ti` in lock-step. -/
def tzVariant (v : FormData) : FormData :=
  let varResult := replaceTzWithCAndAdjustIndex v.t v.ti
  { v with t := varResult.1, ti := varResult.2 }

/-- Embedding of `applyTransliterationReplacement` (newer snapshot, in
`parse-json-to-html.ts` after the snapshot separator): Substitution A
(`ch` to `kh`) when `useChToKh`, then Substitution B (`tz` to `c` with
accent-index adjustment) when `useTzToC`, each applied to the form and
to every variation. -/
def applyTransliterationReplacement (form : Form) (useChToKh useTzToC : Bool) : Form :=
  let pT1 := if useChToKh then replaceChWithKh form.t else form.t
  let pV1 := if useChToKh then form.variations.map (List.map chVariant) else form.variations
  let pT2 := if useTzToC then (replaceTzWithCAndAdjustIndex pT1 form.ti).1 else pT1
  let pTI2 := if useTzToC then (replaceTzWithCAndAdjustIndex pT1 form.ti).2 else form.ti
  let pV2 := if useTzToC then pV1.map (List.map tzVariant) else pV1
  { form with t := pT2, ti := pTI2, variations := pV2 }

/-! ### Form extraction (`parse-html-to-json`, newer snapshot) -/

/-- Modelled from the spec: the separator marker `TILDE` imported from
`app/constants`, a file absent from the sources; the specification
describes it as "a designated separator marker (a tilde character in
the source convention)". -/
def TILDE : Char := '~'

/-- Membership in `NIQQUD_REGEX`, the character class from `\u0591`
to `\u05C7` (`app/constants/regex`). -/
def isNiqqud (c : Char) : Bool := 0x591 ≤ c.toNat && c.toNat ≤ 0x5C7

/-- Selector `span.menukad`. -/
def isMenukadSpan (n : DomNode) : Bool := n.tagOf == "span" && n.hasClass "menukad"

/-- Selector `div.transcription`. -/
def isTranscriptionDiv (n : DomNode) : Bool := n.tagOf == "div" && n.hasClass "transcription"

/-- Selector `span.transcription, div.transcription` (the fallback
branch of `extractVariations`). -/
def isTranscriptionSpanOrDiv (n : DomNode) : Bool :=
  (n.tagOf == "span" || n.tagOf == "div") && n.hasClass "transcription"

/-- Selector `b`. -/
def isBoldTag (n : DomNode) : Bool := n.tagOf == "b"

/-- The `.contents().each` loop computing `textBeforeBold`: accumulate
the text of every child (text data verbatim, elements through their
flattened text) and stop at the node identical to the bold element. -/
def contentsBefore (stop : DomNode) : List DomNode → List Char
  | [] => []
  | c :: rest => if c = stop then [] else textContent c ++ contentsBefore stop rest

/-- The Hebrew-side extraction shared verbatim by `extractFormData`,
the fallback branch of `extractVariations` and
`extractVerbVariations`: given the first `span.menukad` together with
its parent, produce the pair `(h, hn)`.  The trimmed parent text is
split on every tilde; the trimmed first segment overrides the menukad
candidate unless empty (`parts[0] || hn`), the trimmed second segment
becomes `h` (`parts[1] || ""`); with no tilde, `h` is the candidate
with every niqqud character removed. -/
def extractHebrewPair (mkOpt : Option (DomNode × DomNode)) : List Char × List Char :=
  let hn0 := jsTrim (optText (mkOpt.map Prod.fst))
  let hebrewText := jsTrim (optText (mkOpt.map Prod.snd))
  if hebrewText.contains TILDE then
    let parts := (splitOnChar TILDE hebrewText).map jsTrim
    (parts.getD 1 [], if (parts.getD 0 []).isEmpty then hn0 else parts.getD 0 [])
  else
    (hn0.filter (fun c => !isNiqqud c), hn0)

/-- The transliteration-side extraction shared verbatim by
`extractFormData`, the fallback branch of `extractVariations` and
`extractVerbVariations`: the trimmed flattened text of the
transliteration element and the length of the text preceding its first
`b` descendant (`0` when either element is missing). -/
def extractTransliteration (trOpt : Option DomNode) : List Char × Int :=
  match trOpt with
  | none => ([], 0)
  | some tr =>
    let t := jsTrim (textContent tr)
    match (findFirstWPIn isBoldTag tr tr.childrenOf).map Prod.fst with
    | none => (t, 0)
    | some bold => (t, ((contentsBefore bold tr.childrenOf).length : Int))

/-- The first `span.menukad` descendant of the form element together
with its parent (`menukadSpan` and `menukadSpan.parent()`). -/
def menukadWithParent (formDiv : Option DomNode) : Option (DomNode × DomNode) :=
  formDiv.bind fun fd => findFirstWPIn isMenukadSpan fd fd.childrenOf

/-- The `hebrewText` local of `extractFormData`: the trimmed text of
the parent of the first `span.menukad`. -/
def hebrewTextOf (formDiv : Option DomNode) : List Char :=
  jsTrim (optText ((menukadWithParent formDiv).map Prod.snd))

/-- Embedding of `extractFormData`: extract `\x7b h, hn, t, ti \x7d`
from a form element (an empty cheerio selection is `none` and yields
the all-empty record, as every lookup inside it comes back empty). -/
def extractFormData (formDiv : Option DomNode) : FormData :=
  let hPair := extractHebrewPair (menukadWithParent formDiv)
  let tPair := extractTransliteration (formDiv.bind (findFirst isTranscriptionDiv))
  { h := hPair.1, hn := hPair.2, t := tPair.1, ti := tPair.2 }

/-- Embedding of the per-child body of `extractVerbVariations`: skip
`meaning` and `aux-forms` children; for the rest, extract a variation
when a `span.menukad` is present (transliteration from
`div.transcription` only). -/
def verbVariantOf (variationDiv : DomNode) : List FormData :=
  if variationDiv.hasClass "meaning" || variationDiv.hasClass "aux-forms" then []
  else
    match findFirstWPIn isMenukadSpan variationDiv variationDiv.childrenOf with
    | none => []
    | some mkWP =>
      let hPair := extractHebrewPair (some mkWP)
      let tPair := extractTransliteration (findFirst isTranscriptionDiv variationDiv)
      [{ h := hPair.1, hn := hPair.2, t := tPair.1, ti := tPair.2 }]

/-- The element children with tag `div` (`.children("div")`). -/
def childDivs (n : DomNode) : List DomNode :=
  n.childrenOf.filter fun c => c.tagOf == "div"

/-- Embedding of `extractVerbVariations`: walk the direct `div`
children of the form element, skipping the first (the primary form),
and collect one variation per remaining child per `verbVariantOf`. -/
def extractVerbVariations (formDiv : Option DomNode) : List FormData :=
  match formDiv with
  | none => []
  | some fd => (((childDivs fd).drop 1).map verbVariantOf).flatten

/-- The literal sentence fragment gating the `filterModernLanguage`
filter of `extractVariations`. -/
def MODERN_FRAGMENT : List Char :=
  "In modern language, the masculine form is generally used".toList

/-- The literal sentence fragment gating the `filterUnstressedEnding`
filter of `extractVariations`. -/
def UNSTRESSED_FRAGMENT : List Char :=
  "The ending is usually unstressed in spoken language".toList

/-- The id list of the structured-form selector inside `processDiv`. -/
def formIdSelectorList : List String :=
  ["s", "p", "ms-a", "fs-a", "mp-a", "fp-a", "AP-ms", "AP-fs", "AP-mp", "AP-fp",
   "INF-L", "IMP-2ms", "IMP-2fs", "IMP-2mp", "IMP-2fp",
   "IMPF-1s", "IMPF-1p", "IMPF-2ms", "IMPF-2fs", "IMPF-2mp", "IMPF-2fp",
   "IMPF-3ms", "IMPF-3fs", "IMPF-3mp", "IMPF-3fp",
   "PERF-1s", "PERF-1p", "PERF-2ms", "PERF-2fs", "PERF-2mp", "PERF-2fp",
   "PERF-3ms", "PERF-3fs", "PERF-3p"]

/-- Selector matching any `div` whose id is one of the structured form
identifiers. -/
def isFormIdDiv (n : DomNode) : Bool :=
  n.tagOf == "div" && formIdSelectorList.contains n.idOf

/-- Embedding of the `processDiv` closure of `extractVariations`: a
child holding a structured form div goes through `extractFormData`;
otherwise a direct `span.menukad` (with transliteration from
`span.transcription, div.transcription`) yields a variation; otherwise
nothing. -/
def processDiv (currentDiv : DomNode) : List FormData :=
  match findFirst isFormIdDiv currentDiv with
  | some varDiv => [extractFormData (some varDiv)]
  | none =>
    match findFirstWPIn isMenukadSpan currentDiv currentDiv.childrenOf with
    | none => []
    | some mkWP =>
      let hPair := extractHebrewPair (some mkWP)
      let tPair := extractTransliteration (findFirst isTranscriptionSpanOrDiv currentDiv)
      [{ h := hPair.1, hn := hPair.2, t := tPair.1, ti := tPair.2 }]

/-- The filtering `contents().each` loop of `extractVariations`: a
text node containing the filter text starts skipping; the next
non-empty text node stops it; `div` elements are processed through
`processDiv` unless skipping. -/
def filterLoop (filterText : List Char) : List DomNode → Bool → List FormData
  | [], _ => []
  | .text d :: rest, skip =>
    let tx := jsTrim d
    if containsSeq filterText tx then filterLoop filterText rest true
    else if skip && !tx.isEmpty then filterLoop filterText rest false
    else filterLoop filterText rest skip
  | .elem t i cl ch :: rest, skip =>
    if t == "div" then
      (if !skip then processDiv (.elem t i cl ch) else []) ++ filterLoop filterText rest skip
    else filterLoop filterText rest skip

/-- Selector `div.aux-forms`. -/
def isAuxFormsDiv (n : DomNode) : Bool := n.tagOf == "div" && n.hasClass "aux-forms"

/-- Selector `div.popover-host`. -/
def isPopoverHostDiv (n : DomNode) : Bool := n.tagOf == "div" && n.hasClass "popover-host"

/-- Embedding of `extractVariations` (newer snapshot, with the two
boilerplate filters): locate the `aux-forms` container (directly or
one level inside `popover-host`); with no filter active process every
direct `div` child through `processDiv`; with a filter active walk the
contents with `filterLoop`. -/
def extractVariations (td : Option DomNode)
    (filterUnstressedEnding filterModernLanguage : Bool) : List FormData :=
  match td with
  | none => []
  | some tdn =>
    let popoverHost := findFirst isPopoverHostDiv tdn
    let auxForms := findFirst isAuxFormsDiv tdn
    let hasVariation := popoverHost.isSome || auxForms.isSome
    if hasVariation then
      let variationContainer :=
        if auxForms.isNone && popoverHost.isSome then popoverHost.bind (findFirst isAuxFormsDiv)
        else auxForms
      match variationContainer with
      | none => []
      | some vc =>
        let containerText := jsTrim (textContent vc)
        let shouldFilterModernLanguage :=
          filterModernLanguage && containsSeq MODERN_FRAGMENT containerText
        let shouldFilterUnstressedEnding :=
          filterUnstressedEnding && containsSeq UNSTRESSED_FRAGMENT containerText
        if !shouldFilterModernLanguage && !shouldFilterUnstressedEnding then
          ((childDivs vc).map processDiv).flatten
        else
          let filterText :=
            if shouldFilterModernLanguage then MODERN_FRAGMENT else UNSTRESSED_FRAGMENT
          filterLoop filterText vc.childrenOf false
    else []

/-! ### Category mapper slot logic (the `POST` route) -/

/-- Selector `tr`. -/
def isTrRow (n : DomNode) : Bool := n.tagOf == "tr"

/-- Selector `th`. -/
def isThCell (n : DomNode) : Bool := n.tagOf == "th"

/-- Selector `td.conj-td`. -/
def isConjTd (n : DomNode) : Bool := n.tagOf == "td" && n.hasClass "conj-td"

/-- Trimmed text of the first `th` of a row, the row-header label the
route compares against. -/
def rowHeaderText (row : DomNode) : List Char :=
  jsTrim (optText (findFirst isThCell row))

/-- The `table.find("tr").each` loop stopping at the first row whose
header text contains `label` (used for the verb tense blocks). -/
def findRowContaining (table : DomNode) (label : List Char) : Option DomNode :=
  (findAllIn isTrRow table.childrenOf).find? fun row => containsSeq label (rowHeaderText row)

/-- The `table.find("tr").each` loop stopping at the first row whose
header text equals `label` (used for the noun `Absolute state` row). -/
def findRowEq (table : DomNode) (label : List Char) : Option DomNode :=
  (findAllIn isTrRow table.childrenOf).find? fun row => rowHeaderText row == label

/-- Embedding of the route's `findFormDataAndTd` helper: look for a
`td` then for a `div` carrying the slot identifier anywhere in the
table; a bare `td` serves as its own form element, a bare `div`
resolves its enclosing `td.conj-td`; `none` when the identifier
resolves to no element. -/
def findFormDataAndTd (table : DomNode) (formId : String) : Option (DomNode × DomNode) :=
  let td := findFirst (fun n => n.tagOf == "td" && n.idOf == formId) table
  let div := findFirst (fun n => n.tagOf == "div" && n.idOf == formId) table
  match td with
  | some tdn => some (tdn, div.getD tdn)
  | none =>
    match div with
    | none => none
    | some divn =>
      match closestFrom isConjTd table divn with
      | some tdn => some (tdn, divn)
      | none => none

/-- Attach a variation list to extracted form data the way every slot
block of the route does: only when non-empty. -/
def attachVariations (d : FormData) (vars : List FormData) : Form :=
  { h := d.h, hn := d.hn, t := d.t, ti := d.ti,
    variations := if vars.length > 0 then some vars else none }

/-- The per-slot pattern repeated for every verb slot of the `POST`
route: the slot keeps its all-empty initial value unless the gating
row (matched by `label` in some row header) is present; inside it,
`findFormDataAndTd` resolves the identifier, `extractFormData` runs on
the form element, and both variation extractors run (direct first,
auxiliary second, with the slot's two boilerplate-filter flags). -/
def extractVerbSlot (table : DomNode) (label : List Char) (formId : String)
    (filterUnstressedEnding filterModernLanguage : Bool) : Form :=
  match findRowContaining table label with
  | none => emptyFormValue
  | some _ =>
    match findFormDataAndTd table formId with
    | none => emptyFormValue
    | some (tdn, divn) =>
      let d := extractFormData (some divn)
      let direct := extractVerbVariations (some divn)
      let aux := extractVariations (some tdn) filterUnstressedEnding filterModernLanguage
      attachVariations d (direct ++ aux)

/-- The noun branch of the `POST` route (the `Absolute state` row):
both slots keep their all-empty initial value when the row is absent;
otherwise the first and second `td.conj-td` of the row provide the
singular (`div` with id `s`) and plural (`div` with id `p`) forms with
their auxiliary variations. -/
def extractNounAbsolute (table : DomNode) : Form × Form :=
  match findRowEq table "Absolute state".toList with
  | none => (emptyFormValue, emptyFormValue)
  | some row =>
    let tds := findAllIn isConjTd row.childrenOf
    let singularTd := tds[0]?
    let singularDiv := singularTd.bind (findFirst fun n => n.tagOf == "div" && n.idOf == "s")
    let singular := attachVariations (extractFormData singularDiv)
      (extractVariations singularTd false false)
    let pluralTd := tds[1]?
    let pluralDiv := pluralTd.bind (findFirst fun n => n.tagOf == "div" && n.idOf == "p")
    let plural := attachVariations (extractFormData pluralDiv)
      (extractVariations pluralTd false false)
    (singular, plural)

/-! ### Verb aggregate assembly (the `POST` route, result object) -/

/-- The slot values extracted by the verb branch of the route before
the transliteration pass (imperative slots already stripped of
exclamation marks). -/
structure VerbSlots where
  infinitive : Form
  mSingular : Form
  fSingular : Form
  mPlural : Form
  fPlural : Form
  imperativeMSingular : Form
  imperativeFSingular : Form
  imperativeMPlural : Form
  imperativeFPlural : Form
  future1stSingular : Form
  future1stPlural : Form
  future2ndMSingular : Form
  future2ndFSingular : Form
  future2ndMPlural : Form
  future2ndFPlural : Form
  future3rdMSingular : Form
  future3rdFSingular : Form
  future3rdMPlural : Form
  future3rdFPlural : Form
  past1stSingular : Form
  past1stPlural : Form
  past2ndMSingular : Form
  past2ndFSingular : Form
  past2ndMPlural : Form
  past2ndFPlural : Form
  past3rdMSingular : Form
  past3rdFSingular : Form
  past3rdPlural : Form
  deriving DecidableEq

/-- The form-valued fields of the verb result object assembled by the
`POST` route, as an association list in the order of the object
literal: every slot goes through `applyTransliterationReplacement`,
and the single 1st-person and past 3rd-person-plural forms are stored
under the masculine-named keys (`processedFuture1stMSingular =
processedFuture1stSingular` and so on); no feminine-named counterpart
of those keys exists in the object. -/
def assembleVerbResultFields (s : VerbSlots) (useChToKh useTzToC : Bool) :
    List (String × Form) :=
  let p := fun f => applyTransliterationReplacement f useChToKh useTzToC
  [("infinitive", p s.infinitive),
   ("mSingular", p s.mSingular),
   ("fSingular", p s.fSingular),
   ("mPlural", p s.mPlural),
   ("fPlural", p s.fPlural),
   ("imperativeMSingular", p s.imperativeMSingular),
   ("imperativeFSingular", p s.imperativeFSingular),
   ("imperativeMPlural", p s.imperativeMPlural),
   ("imperativeFPlural", p s.imperativeFPlural),
   ("past1stMSingular", p s.past1stSingular),
   ("past1stMPlural", p s.past1stPlural),
   ("past2ndMSingular", p s.past2ndMSingular),
   ("past2ndFSingular", p s.past2ndFSingular),
   ("past2ndMPlural", p s.past2ndMPlural),
   ("past2ndFPlural", p s.past2ndFPlural),
   ("past3rdMSingular", p s.past3rdMSingular),
   ("past3rdFSingular", p s.past3rdFSingular),
   ("past3rdMPlural", p s.past3rdPlural),
   ("future1stMSingular", p s.future1stSingular),
   ("future1stMPlural", p s.future1stPlural),
   ("future2ndMSingular", p s.future2ndMSingular),
   ("future2ndFSingular", p s.future2ndFSingular),
   ("future2ndMPlural", p s.future2ndMPlural),
   ("future2ndFPlural", p s.future2ndFPlural),
   ("future3rdMSingular", p s.future3rdMSingular),
   ("future3rdFSingular", p s.future3rdFSingular),
   ("future3rdMPlural", p s.future3rdMPlural),
   ("future3rdFPlural", p s.future3rdFPlural)]


/-! ### Lemmas about the `tz` scan and the accent-index arithmetic -/

/-- Independent characterization of a `tz` occurrence: `tz` starts at
position `j` of `s`. -/
def tzStartAt (s : List Char) (j : Nat) : Bool :=
  s[j]? == some 't' && s[j + 1]? == some 'z'

theorem tzPositionsAux_shift (s : List Char) : ∀ pos : Nat,
    tzPositionsAux s pos = (tzPositionsAux s 0).map (· + pos) := by
  induction s with
  | nil => intro pos; simp [tzPositionsAux]
  | cons c tail ih =>
    intro pos
    cases tail with
    | nil => simp [tzPositionsAux]
    | cons c2 rest =>
      have hfun : (fun a => a + 1 + pos) = (fun a : Nat => a + (pos + 1)) := by
        funext a; omega
      by_cases h : (c = 't' && c2 = 'z') = true
      · simp only [tzPositionsAux, h, if_pos, ih (pos + 1), ih 1, List.map_cons,
          List.map_map, Nat.zero_add, Function.comp_def, hfun]
      · simp only [tzPositionsAux, h, if_neg, Bool.false_eq_true, not_false_iff,
          ih (pos + 1), ih 1, List.map_map, Function.comp_def, hfun]

theorem tzStartAt_cons_succ (c : Char) (tail : List Char) (j : Nat) :
    tzStartAt (c :: tail) (j + 1) = tzStartAt tail j := by
  simp [tzStartAt]

theorem tzPositions_eq_filter (s : List Char) :
    tzPositions s = (List.range s.length).filter fun j => tzStartAt s j := by
  induction s with
  | nil => simp [tzPositions, tzPositionsAux]
  | cons c tail ih =>
    have hrange : List.range (c :: tail).length =
        0 :: (List.range tail.length).map Nat.succ := by
      simp [List.length_cons, List.range_succ_eq_map]
    have hfilter_shift :
        ((List.range tail.length).map Nat.succ).filter (fun j => tzStartAt (c :: tail) j)
          = ((List.range tail.length).filter fun j => tzStartAt tail j).map Nat.succ := by
      rw [List.filter_map]
      congr 1
      apply List.filter_congr
      intro j _
      simp [Function.comp, Nat.succ_eq_add_one, tzStartAt_cons_succ]
    cases tail with
    | nil =>
      simp [tzPositions, tzPositionsAux, tzStartAt]
    | cons c2 rest =>
      have hmap : (tzPositions (c2 :: rest)).map Nat.succ = tzPositionsAux (c2 :: rest) 1 := by
        rw [tzPositionsAux_shift _ 1, tzPositions]
      have hstart : tzStartAt (c :: c2 :: rest) 0 = (c = 't' && c2 = 'z') := by
        rw [Bool.eq_iff_iff]
        simp [tzStartAt]
      rw [hrange, List.filter_cons, hfilter_shift, ← ih, hmap, hstart, tzPositions,
        tzPositionsAux]

theorem mem_tzPositions {s : List Char} {j : Nat} :
    j ∈ tzPositions s ↔ j < s.length ∧ tzStartAt s j = true := by
  rw [tzPositions_eq_filter]
  simp [List.mem_filter, List.mem_range]

theorem tzStartAt_iff {s : List Char} {j : Nat} :
    tzStartAt s j = true ↔ s[j]? = some 't' ∧ s[j + 1]? = some 'z' := by
  simp [tzStartAt]

theorem tzPositions_pairwise_lt (s : List Char) :
    (tzPositions s).Pairwise (· < ·) := by
  rw [tzPositions_eq_filter]
  exact (List.pairwise_lt_range _).sublist (List.filter_sublist _)

theorem pairwise_strengthen {α : Type} {R S : α → α → Prop} :
    ∀ {l : List α}, l.Pairwise R → (∀ a b, a ∈ l → b ∈ l → R a b → S a b) →
      l.Pairwise S := by
  intro l h
  induction h with
  | nil => intro _; exact List.Pairwise.nil
  | @cons a tail hhead htail ih =>
    intro hmem
    refine List.Pairwise.cons ?_ (ih fun x y hx hy hr =>
      hmem x y (List.mem_cons_of_mem _ hx) (List.mem_cons_of_mem _ hy) hr)
    intro b hb
    exact hmem a b (List.mem_cons_self _ _) (List.mem_cons_of_mem _ hb) (hhead b hb)

theorem tzPositions_pairwise_gap (s : List Char) :
    (tzPositions s).Pairwise fun a b => a + 2 ≤ b := by
  refine pairwise_strengthen (tzPositions_pairwise_lt s) ?_
  intro a b ha hb hab
  have h1 := (tzStartAt_iff.mp (mem_tzPositions.mp ha).2).2
  have h2 := (tzStartAt_iff.mp (mem_tzPositions.mp hb).2).1
  rcases Nat.lt_or_ge b (a + 2) with hlt | hge
  · have hba : b = a + 1 := by omega
    rw [hba] at h2
    rw [h1] at h2
    simp at h2
  · exact hge

theorem mem_tzPositions_le {s : List Char} {j : Nat} (h : j ∈ tzPositions s) :
    j + 2 ≤ s.length := by
  have h2 := (tzStartAt_iff.mp (mem_tzPositions.mp h).2).2
  rcases List.getElem?_eq_some_iff.mp h2 with ⟨hlt, _⟩
  omega

theorem foldl_adjust (i : Int) : ∀ (L : List Nat) (acc : Int),
    L.foldl (fun (adjusted : Int) (tzP : Nat) =>
        if (tzP : Int) < i then adjusted - 1 else adjusted) acc
      = acc - (((L.filter fun p : Nat => decide ((p : Int) < i)).length : Nat) : Int) := by
  intro L
  induction L with
  | nil => intro acc; simp
  | cons p rest ih =>
    intro acc
    by_cases h : (p : Int) < i
    · rw [List.foldl_cons]
      rw [if_pos h, ih, List.filter_cons]
      rw [decide_eq_true h, if_pos rfl]
      simp only [List.length_cons]
      push_cast
      ring
    · rw [List.foldl_cons]
      rw [if_neg h, ih, List.filter_cons]
      rw [decide_eq_false h]
      simp

theorem tzPositionsAux_skip {c : Char} (hc : c ≠ 't') (l : List Char) (pos : Nat) :
    tzPositionsAux (c :: l) pos = tzPositionsAux l (pos + 1) := by
  cases l with
  | nil => simp [tzPositionsAux]
  | cons d l' =>
    have : (c = 't' && d = 'z') = false := by
      simp [hc]
    simp [tzPositionsAux, this]

theorem length_replaceTzWithC (s : List Char) :
    ∀ pos : Nat, (replaceTzWithC s).length + (tzPositionsAux s pos).length = s.length := by
  induction s using replaceTzWithC.induct with
  | case1 => intro pos; simp [replaceTzWithC, tzPositionsAux]
  | case2 c => intro pos; simp [replaceTzWithC, tzPositionsAux]
  | case3 c1 c2 rest h ih =>
    intro pos
    have hc1 : c1 = 't' := by
      rcases Bool.and_eq_true_iff.mp h with ⟨h1, _⟩
      exact of_decide_eq_true h1
    have hc2 : c2 = 'z' := by
      rcases Bool.and_eq_true_iff.mp h with ⟨_, h2⟩
      exact of_decide_eq_true h2
    have hz : c2 ≠ 't' := by rw [hc2]; decide
    rw [replaceTzWithC, if_pos h, tzPositionsAux, if_pos h,
      tzPositionsAux_skip hz rest (pos + 1)]
    have := ih (pos + 1 + 1)
    simp only [List.length_cons] at this ⊢
    omega
  | case4 c1 c2 rest h ih =>
    intro pos
    rw [replaceTzWithC, if_neg h, tzPositionsAux, if_neg h]
    have := ih (pos + 1)
    simp only [List.length_cons] at this ⊢
    omega

theorem length_filter_split {α : Type} (L : List α) (p : α → Bool) :
    (L.filter p).length + (L.filter fun x => !p x).length = L.length := by
  induction L with
  | nil => simp
  | cons a rest ih =>
    by_cases h : p a = true
    · simp [List.filter_cons, h, ih]
      omega
    · have h' : p a = false := by simp at h; exact h
      simp [List.filter_cons, h', ih]
      omega

theorem length_le_sub : ∀ (L : List Nat) (m n : Nat),
    (∀ x ∈ L, m ≤ x ∧ x < n) → L.Pairwise (· < ·) → L.length ≤ n - m := by
  intro L
  induction L with
  | nil => intro m n _ _; simp
  | cons p rest ih =>
    intro m n hb hp
    rw [List.pairwise_cons] at hp
    have h1 : ∀ x ∈ rest, p + 1 ≤ x ∧ x < n := fun x hx =>
      ⟨hp.1 x hx, (hb x (List.mem_cons_of_mem _ hx)).2⟩
    have h2 := ih (p + 1) n h1 hp.2
    have h3 := hb p (List.mem_cons_self _ _)
    simp only [List.length_cons]
    omega

theorem two_mul_length_le : ∀ (L : List Nat) (m n : Nat),
    (∀ x ∈ L, m ≤ x ∧ x < n) → L.Pairwise (fun a b => a + 2 ≤ b) →
      2 * L.length ≤ n + 1 - m := by
  intro L
  induction L with
  | nil => intro m n _ _; simp
  | cons p rest ih =>
    intro m n hb hp
    rw [List.pairwise_cons] at hp
    have h1 : ∀ x ∈ rest, p + 2 ≤ x ∧ x < n := fun x hx =>
      ⟨hp.1 x hx, (hb x (List.mem_cons_of_mem _ hx)).2⟩
    have h2 := ih (p + 2) n h1 hp.2
    have h3 := hb p (List.mem_cons_self _ _)
    simp only [List.length_cons]
    omega


theorem adjustedIndex_eq (text : List Char) (i : Int) :
    (replaceTzWithCAndAdjustIndex text i).2 =
      i - (((tzPositions text).filter fun p : Nat => decide ((p : Int) < i)).length : Int) := by
  unfold replaceTzWithCAndAdjustIndex
  exact foldl_adjust i (tzPositions text) i

theorem count_bounds (text : List Char) (i : Int) (hi : 0 ≤ i) :
    2 * ((tzPositions text).filter fun p : Nat => decide ((p : Int) < i)).length ≤
      i.toNat + 1 := by
  have hmem : ∀ x ∈ (tzPositions text).filter fun p : Nat => decide ((p : Int) < i),
      0 ≤ x ∧ x < i.toNat := by
    intro x hx
    rcases List.mem_filter.mp hx with ⟨_, hq⟩
    have : (x : Int) < i := of_decide_eq_true hq
    omega
  have hpw : ((tzPositions text).filter fun p : Nat =>
      decide ((p : Int) < i)).Pairwise (fun a b => a + 2 ≤ b) :=
    (tzPositions_pairwise_gap text).sublist (List.filter_sublist _)
  have := two_mul_length_le _ 0 i.toNat hmem hpw
  omega

theorem replaceChWithKh_cons_of_ne {a : Char} (h : a ≠ 'c') (l : List Char) :
    replaceChWithKh (a :: l) = a :: replaceChWithKh l := by
  cases l with
  | nil => simp [replaceChWithKh]
  | cons d l' =>
    have : (a = 'c' && d = 'h') = false := by simp [h]
    simp [replaceChWithKh, this]

theorem replaceChWithKh_head_ne {c2 : Char} (h : c2 ≠ 'h') (rest : List Char) :
    ∃ d Y, replaceChWithKh (c2 :: rest) = d :: Y ∧ d ≠ 'h' := by
  cases rest with
  | nil => exact ⟨c2, [], by simp [replaceChWithKh], h⟩
  | cons c3 r =>
    by_cases hg : (c2 = 'c' && c3 = 'h') = true
    · refine ⟨'k', 'h' :: replaceChWithKh r, ?_, by decide⟩
      rw [replaceChWithKh, if_pos hg]
    · exact ⟨c2, replaceChWithKh (c3 :: r), by rw [replaceChWithKh, if_neg hg], h⟩

/-! ### The claims -/

/-- Claim C1: Substitution B, the enabled `tz`-to-`c` pass implemented
by `replaceTzWithCAndAdjustIndex`, returns the transliteration with
every occurrence of `tz` replaced by `c` and the stress offset
decremented once for every occurrence of `tz` in the original text
whose start index is strictly below the incoming offset, occurrences
being exactly the positions `j` with `t[j] = 't'` and `t[j+1] = 'z'`
(which is what the forward scan resuming one character after each
match start collects); on the concrete input `tzohev` with offset `3`
it yields `cohev` with offset `2`. -/
theorem C1_substitutionB_adjusts_offset (t : List Char) (i : Int) (_hi : 0 ≤ i) :
    (replaceTzWithCAndAdjustIndex t i).1 = replaceTzWithC t ∧
    (replaceTzWithCAndAdjustIndex t i).2 =
      i - (((List.range t.length).filter fun j =>
        tzStartAt t j && decide ((j : Int) < i)).length : Int) ∧
    replaceTzWithCAndAdjustIndex "tzohev".toList 3 = ("cohev".toList, 2) := by
  refine ⟨rfl, ?_, by decide⟩
  rw [adjustedIndex_eq, tzPositions_eq_filter, List.filter_filter]
  have h2 : ((List.range t.length).filter fun a : Nat => decide ((a : Int) < i) && tzStartAt t a)
      = (List.range t.length).filter fun a : Nat => tzStartAt t a && decide ((a : Int) < i) :=
    List.filter_congr fun a _ => Bool.and_comm _ _
  rw [h2]

/-- Witness for C1 at the concrete input of the specification. -/
theorem C1_witness :
    (0 : Int) ≤ 3 ∧
    ((replaceTzWithCAndAdjustIndex "tzohev".toList 3).1 = replaceTzWithC "tzohev".toList ∧
    (replaceTzWithCAndAdjustIndex "tzohev".toList 3).2 =
      3 - (((List.range "tzohev".toList.length).filter fun j =>
        tzStartAt "tzohev".toList j && decide ((j : Int) < 3)).length : Int) ∧
    replaceTzWithCAndAdjustIndex "tzohev".toList 3 = ("cohev".toList, 2)) :=
  ⟨by decide, C1_substitutionB_adjusts_offset "tzohev".toList 3 (by decide)⟩

/-- Claim C8: Substitution A is idempotent: applying `replaceChWithKh`
twice gives the same transliteration as applying it once, the global
replacement of `ch` by `kh` being unable to create a new occurrence of
`ch`. -/
theorem C8_substitutionA_idempotent (s : List Char) :
    replaceChWithKh (replaceChWithKh s) = replaceChWithKh s := by
  induction s using replaceChWithKh.induct with
  | case1 => rfl
  | case2 c => rfl
  | case3 c1 c2 rest h ih =>
    rw [replaceChWithKh, if_pos h]
    have hk : ('k' : Char) ≠ 'c' := by decide
    have hh : ('h' : Char) ≠ 'c' := by decide
    rw [replaceChWithKh_cons_of_ne hk, replaceChWithKh_cons_of_ne hh, ih]
  | case4 c1 c2 rest h ih =>
    rw [replaceChWithKh, if_neg h]
    by_cases hc1 : c1 = 'c'
    · have hc2 : c2 ≠ 'h' := by
        intro hc2
        exact h (by simp [hc1, hc2])
      rcases replaceChWithKh_head_ne hc2 rest with ⟨d, Y, hdY, hd⟩
      rw [hdY]
      have : (c1 = 'c' && d = 'h') = false := by simp [hd]
      rw [replaceChWithKh, if_neg (by simp [this]), ← hdY, ih]
    · rw [replaceChWithKh_cons_of_ne hc1, ih]

/-- Claim C9: for every text and every accent index `i ≥ 0` the
adjusted accent index returned by `replaceTzWithCAndAdjustIndex` is
non-negative: the collected `tz` start positions are pairwise at least
two apart, so at most `⌈i / 2⌉` decrements (twice the decrement count
is at most `i + 1`) are applied. -/
theorem C9_adjusted_index_nonneg (text : List Char) (i : Int) (hi : 0 ≤ i) :
    0 ≤ (replaceTzWithCAndAdjustIndex text i).2 ∧
    2 * (i - (replaceTzWithCAndAdjustIndex text i).2) ≤ i + 1 ∧
    (tzPositions text).Pairwise (fun a b => a + 2 ≤ b) := by
  refine ⟨?_, ?_, tzPositions_pairwise_gap text⟩ <;>
  · rw [adjustedIndex_eq]
    have := count_bounds text i hi
    omega

/-- Witness for C9 at a concrete input with an overlappable-looking
scan (`tztz`) and offset `3`. -/
theorem C9_witness :
    (0 : Int) ≤ 3 ∧
    (0 ≤ (replaceTzWithCAndAdjustIndex "tztza".toList 3).2 ∧
    2 * (3 - (replaceTzWithCAndAdjustIndex "tztza".toList 3).2) ≤ 3 + 1 ∧
    (tzPositions "tztza".toList).Pairwise (fun a b => a + 2 ≤ b)) :=
  ⟨by decide, C9_adjusted_index_nonneg "tztza".toList 3 (by decide)⟩


/-- Claim C10: `removeExclamationMarks` returns a form whose stress
offset (and each variation's stress offset) is the input's, unchanged,
while every `!` is deleted from the `h`, `hn` and `t` fields and the
results trimmed; the offset is never recomputed. -/
theorem C10_remove_exclamation_frame (form : Form) :
    (removeExclamationMarks form).ti = form.ti ∧
    (removeExclamationMarks form).h = jsTrim (form.h.filter fun c => c != '!') ∧
    (removeExclamationMarks form).hn = jsTrim (form.hn.filter fun c => c != '!') ∧
    (removeExclamationMarks form).t = jsTrim (form.t.filter fun c => c != '!') ∧
    ((removeExclamationMarks form).variations.map fun l => l.map FormData.ti)
      = form.variations.map (fun l => l.map FormData.ti) ∧
    ((removeExclamationMarks form).variations.map fun l => l.map FormData.t)
      = form.variations.map (fun l => l.map fun v => jsTrim (v.t.filter fun c => c != '!')) ∧
    ((removeExclamationMarks form).variations.map fun l => l.map FormData.h)
      = form.variations.map (fun l => l.map fun v => jsTrim (v.h.filter fun c => c != '!')) ∧
    ((removeExclamationMarks form).variations.map fun l => l.map FormData.hn)
      = form.variations.map (fun l => l.map fun v => jsTrim (v.hn.filter fun c => c != '!')) := by
  cases hv : form.variations with
  | none => simp [removeExclamationMarks, hv]
  | some vs =>
    refine ⟨rfl, rfl, rfl, rfl, ?_, ?_, ?_, ?_⟩ <;>
      simp [removeExclamationMarks, hv, List.map_map, Function.comp_def]

/-- All-empty slot values, a concrete input for the C3 record-shape
counterexample. -/
def allEmptyVerbSlots : VerbSlots :=
  ⟨emptyFormValue, emptyFormValue, emptyFormValue, emptyFormValue, emptyFormValue,
   emptyFormValue, emptyFormValue, emptyFormValue, emptyFormValue,
   emptyFormValue, emptyFormValue, emptyFormValue, emptyFormValue, emptyFormValue,
   emptyFormValue, emptyFormValue, emptyFormValue, emptyFormValue, emptyFormValue,
   emptyFormValue, emptyFormValue, emptyFormValue, emptyFormValue, emptyFormValue,
   emptyFormValue, emptyFormValue, emptyFormValue, emptyFormValue⟩

/-- Counterexample to claim C3 as stated: in the verb aggregate record
assembled by the route there is no feminine-named field at all for the
1st-person or past 3rd-person-plural slots, so the single extracted
form is not "duplicated into both the masculine and the feminine
fields" — at a concrete input the feminine keys are absent from the
record while the masculine key holds the single processed form. -/
theorem C3_counterexample :
    (assembleVerbResultFields allEmptyVerbSlots true true).lookup "past1stFSingular" = none ∧
    (assembleVerbResultFields allEmptyVerbSlots true true).lookup "past1stFPlural" = none ∧
    (assembleVerbResultFields allEmptyVerbSlots true true).lookup "future1stFSingular" = none ∧
    (assembleVerbResultFields allEmptyVerbSlots true true).lookup "future1stFPlural" = none ∧
    (assembleVerbResultFields allEmptyVerbSlots true true).lookup "past3rdFPlural" = none ∧
    (assembleVerbResultFields allEmptyVerbSlots true true).lookup "past1stMSingular"
      = some (applyTransliterationReplacement emptyFormValue true true) := by
  decide

/-- Claim C3 amended: the slots with a single source form — 1st person
(future and past, singular and plural) and past-tense 3rd person
plural — have that single extracted form stored, after normalization,
under the masculine-named aggregate keys only (`past1stMSingular`,
`past1stMPlural`, `future1stMSingular`, `future1stMPlural`,
`past3rdMPlural`); no feminine-named counterpart of those keys exists
in the returned record, and the complete m/f grid is produced later by
the HTML renderer spanning those cells across both gender columns. -/
theorem C3_amended_masculine_keys_only (s : VerbSlots) (b1 b2 : Bool) :
    (assembleVerbResultFields s b1 b2).lookup "past1stMSingular"
      = some (applyTransliterationReplacement s.past1stSingular b1 b2) ∧
    (assembleVerbResultFields s b1 b2).lookup "past1stMPlural"
      = some (applyTransliterationReplacement s.past1stPlural b1 b2) ∧
    (assembleVerbResultFields s b1 b2).lookup "future1stMSingular"
      = some (applyTransliterationReplacement s.future1stSingular b1 b2) ∧
    (assembleVerbResultFields s b1 b2).lookup "future1stMPlural"
      = some (applyTransliterationReplacement s.future1stPlural b1 b2) ∧
    (assembleVerbResultFields s b1 b2).lookup "past3rdMPlural"
      = some (applyTransliterationReplacement s.past3rdPlural b1 b2) ∧
    (assembleVerbResultFields s b1 b2).lookup "past1stFSingular" = none ∧
    (assembleVerbResultFields s b1 b2).lookup "past1stFPlural" = none ∧
    (assembleVerbResultFields s b1 b2).lookup "future1stFSingular" = none ∧
    (assembleVerbResultFields s b1 b2).lookup "future1stFPlural" = none ∧
    (assembleVerbResultFields s b1 b2).lookup "past3rdFPlural" = none := by
  refine ⟨rfl, rfl, rfl, rfl, rfl, rfl, rfl, rfl, rfl, rfl⟩


/-! ### Lemmas about `splitOnChar` -/

theorem splitOnChar_ne_nil (sep : Char) (s : List Char) : splitOnChar sep s ≠ [] := by
  cases s with
  | nil => simp [splitOnChar]
  | cons c rest =>
    rw [splitOnChar]
    by_cases h : c = sep
    · simp [h]
    · simp only [if_neg h]
      cases splitOnChar sep rest <;> simp

theorem splitOnChar_head (sep : Char) (s : List Char) :
    (splitOnChar sep s).getD 0 [] = s.takeWhile fun c => c != sep := by
  induction s with
  | nil => simp [splitOnChar]
  | cons c rest ih =>
    rw [splitOnChar, List.takeWhile_cons]
    by_cases h : c = sep
    · simp [h]
    · have hb : (c != sep) = true := by simp [h]
      simp only [if_neg h, hb, if_pos]
      rcases hr : splitOnChar sep rest with _ | ⟨hd, tl⟩
      · exact absurd hr (splitOnChar_ne_nil sep rest)
      · rw [hr] at ih
        simp only [List.getD_cons_zero] at ih
        simp [ih]

theorem splitOnChar_second (sep : Char) : ∀ s : List Char, sep ∈ s →
    (splitOnChar sep s).getD 1 [] =
      ((s.dropWhile fun c => c != sep).drop 1).takeWhile fun c => c != sep := by
  intro s
  induction s with
  | nil => intro h; cases h
  | cons c rest ih =>
    intro hmem
    rw [splitOnChar, List.dropWhile_cons]
    by_cases h : c = sep
    · have hb : (c != sep) = false := by simp [h]
      simp only [if_pos h, hb, Bool.false_eq_true, if_neg, not_false_iff,
        List.getD_cons_succ, List.drop_succ_cons, List.drop_zero]
      exact splitOnChar_head sep rest
    · have hb : (c != sep) = true := by simp [h]
      have hmem' : sep ∈ rest := by
        rcases List.mem_cons.mp hmem with h1 | h1
        · exact absurd h1.symm h
        · exact h1
      simp only [if_neg h, hb, if_pos]
      rcases hr : splitOnChar sep rest with _ | ⟨hd, tl⟩
      · exact absurd hr (splitOnChar_ne_nil sep rest)
      · rw [hr] at ih
        simpa [hr] using ih hmem'

theorem getD_map_jsTrim : ∀ (l : List (List Char)) (n : Nat),
    (l.map jsTrim).getD n [] = jsTrim (l.getD n []) := by
  intro l
  induction l with
  | nil => intro n; simp [jsTrim]
  | cons a rest ih =>
    intro n
    cases n with
    | zero => simp
    | succ m => simpa using ih m

/-- Claim C5, counterexample input: a form whose pointed spelling is a
single niqqud mark (U+05B0) and whose parent text has no tilde. -/
def c5FormDiv : DomNode :=
  DomNode.elem "div" "" []
    [DomNode.elem "p" "" []
      [DomNode.elem "span" "" ["menukad"] [DomNode.text [Char.ofNat 0x5B0]]]]

/-- Counterexample to claim C5 as stated: with no tilde in the parent
text, a non-empty pointed spelling consisting only of diacritic
codepoints yields an empty unpointed spelling, so "the unpointed
spelling is non-empty whenever the pointed spelling is non-empty"
fails at this input. -/
theorem C5_counterexample :
    (hebrewTextOf (some c5FormDiv)).contains TILDE = false ∧
    (extractFormData (some c5FormDiv)).hn ≠ [] ∧
    (extractFormData (some c5FormDiv)).h = [] := by
  decide

/-- Claim C5 amended: for every form whose parent text contains no
tilde separator, the unpointed spelling equals the pointed spelling
with every codepoint in U+0591 through U+05C7 deleted, and it is
non-empty whenever the pointed spelling contains at least one
codepoint outside that diacritic range (non-emptiness of the pointed
spelling alone does not suffice, per the counterexample). -/
theorem C5_no_tilde_strips_niqqud (formDiv : Option DomNode)
    (hno : (hebrewTextOf formDiv).contains TILDE = false) :
    (extractFormData formDiv).h = (extractFormData formDiv).hn.filter (fun c => !isNiqqud c) ∧
    ((∃ c ∈ (extractFormData formDiv).hn, isNiqqud c = false) →
      (extractFormData formDiv).h ≠ []) := by
  have hh : (extractFormData formDiv).h =
      (extractFormData formDiv).hn.filter fun c => !isNiqqud c := by
    simp only [extractFormData, extractHebrewPair, hebrewTextOf] at hno ⊢
    rw [if_neg (by rw [hno]; simp)]
  refine ⟨hh, ?_⟩
  rintro ⟨c, hc, hn⟩
  rw [hh]
  apply List.ne_nil_of_mem (a := c)
  exact List.mem_filter.mpr ⟨hc, by simp [hn]⟩

/-- Witness for the amended C5 at a concrete input: pointed spelling
`אָב` (letters with one niqqud), no tilde. -/
theorem C5_witness :
    (hebrewTextOf (some (DomNode.elem "div" "" []
      [DomNode.elem "p" "" []
        [DomNode.elem "span" "" ["menukad"] [DomNode.text "אָב".toList]]]))).contains TILDE
      = false ∧
    ((extractFormData (some (DomNode.elem "div" "" []
      [DomNode.elem "p" "" []
        [DomNode.elem "span" "" ["menukad"] [DomNode.text "אָב".toList]]]))).h =
      (extractFormData (some (DomNode.elem "div" "" []
      [DomNode.elem "p" "" []
        [DomNode.elem "span" "" ["menukad"] [DomNode.text "אָב".toList]]]))).hn.filter
        (fun c => !isNiqqud c) ∧
    ((∃ c ∈ (extractFormData (some (DomNode.elem "div" "" []
      [DomNode.elem "p" "" []
        [DomNode.elem "span" "" ["menukad"] [DomNode.text "אָב".toList]]]))).hn,
        isNiqqud c = false) →
      (extractFormData (some (DomNode.elem "div" "" []
      [DomNode.elem "p" "" []
        [DomNode.elem "span" "" ["menukad"] [DomNode.text "אָב".toList]]]))).h ≠ [])) :=
  ⟨by decide, C5_no_tilde_strips_niqqud _ (by decide)⟩


theorem tilde_parts_head (ht : List Char) :
    ((splitOnChar TILDE ht).map jsTrim).getD 0 [] =
      jsTrim (ht.takeWhile fun c => c != TILDE) := by
  rw [getD_map_jsTrim, splitOnChar_head]

theorem tilde_parts_second (ht : List Char) (h : TILDE ∈ ht) :
    ((splitOnChar TILDE ht).map jsTrim).getD 1 [] =
      jsTrim (((ht.dropWhile fun c => c != TILDE).drop 1).takeWhile fun c => c != TILDE) := by
  rw [getD_map_jsTrim, splitOnChar_second _ _ h]

/-- Claim C4, counterexample input: the parent text of the pointed
spelling element holds two tildes, `a ~ b ~ c`. -/
def c4FormDiv : DomNode :=
  DomNode.elem "div" "" []
    [DomNode.elem "p" "" []
      [DomNode.elem "span" "" ["menukad"] [DomNode.text "a".toList],
       DomNode.text " ~ b ~ c".toList]]

/-- Counterexample to claim C4 as stated: on parent text `a ~ b ~ c`
the extractor does not split into exactly two segments at the first
tilde — the claimed unpointed spelling would then be `b ~ c` (the
trimmed remainder after the first occurrence), but the code splits on
every occurrence and returns `b`. -/
theorem C4_counterexample :
    hebrewTextOf (some c4FormDiv) = "a ~ b ~ c".toList ∧
    jsTrim ((("a ~ b ~ c".toList.dropWhile fun c => c != TILDE).drop 1)) = "b ~ c".toList ∧
    (extractFormData (some c4FormDiv)).h = "b".toList ∧
    (extractFormData (some c4FormDiv)).h ≠
      jsTrim ((("a ~ b ~ c".toList.dropWhile fun c => c != TILDE).drop 1)) := by
  decide

/-- Claim C4 amended: for every form whose pointed-spelling element's
parent text contains the tilde, the extractor splits that text on
every occurrence of the tilde; the trimmed first segment becomes the
pointed spelling, overriding the candidate from the pointed-spelling
element unless the trimmed segment is empty (in which case the
candidate is kept), and the trimmed second segment — the text strictly
between the first and second occurrence when more than one tilde is
present — becomes the unpointed spelling; in particular parent text
`פָּתוּר ~ פתור` yields pointed `פָּתוּר` and unpointed `פתור`. -/
theorem C4_tilde_split (formDiv : Option DomNode)
    (hc : (hebrewTextOf formDiv).contains TILDE = true) :
    (extractFormData formDiv).hn =
      (if (jsTrim ((hebrewTextOf formDiv).takeWhile fun c => c != TILDE)).isEmpty
        then jsTrim (optText ((menukadWithParent formDiv).map Prod.fst))
        else jsTrim ((hebrewTextOf formDiv).takeWhile fun c => c != TILDE)) ∧
    (extractFormData formDiv).h =
      jsTrim ((((hebrewTextOf formDiv).dropWhile fun c => c != TILDE).drop 1).takeWhile
        fun c => c != TILDE) ∧
    (extractFormData (some (DomNode.elem "div" "" []
      [DomNode.elem "p" "" []
        [DomNode.elem "span" "" ["menukad"] [DomNode.text "פָּתוּר".toList],
         DomNode.text " ~ פתור".toList]]))).hn = "פָּתוּר".toList ∧
    (extractFormData (some (DomNode.elem "div" "" []
      [DomNode.elem "p" "" []
        [DomNode.elem "span" "" ["menukad"] [DomNode.text "פָּתוּר".toList],
         DomNode.text " ~ פתור".toList]]))).h = "פתור".toList := by
  have hmem : TILDE ∈ hebrewTextOf formDiv := by
    simpa using hc
  refine ⟨?_, ?_, by decide, by decide⟩
  · simp only [extractFormData, extractHebrewPair, hebrewTextOf] at hc hmem ⊢
    rw [if_pos hc, tilde_parts_head]
  · simp only [extractFormData, extractHebrewPair, hebrewTextOf] at hc hmem ⊢
    rw [if_pos hc, tilde_parts_second _ hmem]


/-- Witness input for the amended C4: parent text `x ~ y`. -/
def c4WitnessDiv : DomNode :=
  DomNode.elem "div" "" []
    [DomNode.elem "p" "" []
      [DomNode.elem "span" "" ["menukad"] [DomNode.text "x".toList],
       DomNode.text " ~ y".toList]]

/-- Witness for the amended C4 at a concrete input with parent text
`x ~ y`. -/
theorem C4_witness :
    (hebrewTextOf (some c4WitnessDiv)).contains TILDE = true ∧
    ((extractFormData (some c4WitnessDiv)).hn =
      (if (jsTrim ((hebrewTextOf (some c4WitnessDiv)).takeWhile fun c => c != TILDE)).isEmpty
        then jsTrim (optText ((menukadWithParent (some c4WitnessDiv)).map Prod.fst))
        else jsTrim ((hebrewTextOf (some c4WitnessDiv)).takeWhile fun c => c != TILDE)) ∧
    (extractFormData (some c4WitnessDiv)).h =
      jsTrim ((((hebrewTextOf (some c4WitnessDiv)).dropWhile fun c => c != TILDE).drop 1).takeWhile
        fun c => c != TILDE) ∧
    (extractFormData (some (DomNode.elem "div" "" []
      [DomNode.elem "p" "" []
        [DomNode.elem "span" "" ["menukad"] [DomNode.text "פָּתוּר".toList],
         DomNode.text " ~ פתור".toList]]))).hn = "פָּתוּר".toList ∧
    (extractFormData (some (DomNode.elem "div" "" []
      [DomNode.elem "p" "" []
        [DomNode.elem "span" "" ["menukad"] [DomNode.text "פָּתוּר".toList],
         DomNode.text " ~ פתור".toList]]))).h = "פתור".toList) :=
  ⟨by decide, C4_tilde_split _ (by decide)⟩


/-! ### Lemmas for the stress-offset invariant (claim C2) -/

theorem textContentList_append (l1 l2 : List DomNode) :
    textContentList (l1 ++ l2) = textContentList l1 ++ textContentList l2 := by
  induction l1 with
  | nil => simp [textContentList]
  | cons n rest ih => simp [textContentList, ih]

theorem contentsBefore_append (stop : DomNode) (post : List DomNode) :
    ∀ pre : List DomNode, stop ∉ pre →
      contentsBefore stop (pre ++ stop :: post) = textContentList pre := by
  intro pre
  induction pre with
  | nil => intro _; simp [contentsBefore, textContentList]
  | cons c rest ih =>
    intro h
    have hc : c ≠ stop := fun hh => h (hh ▸ List.mem_cons_self _ _)
    rw [List.cons_append, contentsBefore, if_neg hc,
      ih fun hm => h (List.mem_cons_of_mem _ hm), textContentList]

theorem length_replaceChWithKh (s : List Char) :
    (replaceChWithKh s).length = s.length := by
  induction s using replaceChWithKh.induct with
  | case1 => rfl
  | case2 c => rfl
  | case3 c1 c2 rest h ih => rw [replaceChWithKh, if_pos h]; simp [ih]
  | case4 c1 c2 rest h ih => rw [replaceChWithKh, if_neg h]; simpa using ih

theorem tz_preserves_invariant (t : List Char) (ti : Int)
    (h0 : 0 ≤ ti) (h1 : ti < (t.length : Int)) :
    0 ≤ (replaceTzWithCAndAdjustIndex t ti).2 ∧
    (replaceTzWithCAndAdjustIndex t ti).2 <
      (((replaceTzWithCAndAdjustIndex t ti).1).length : Int) := by
  have hfst : (replaceTzWithCAndAdjustIndex t ti).1 = replaceTzWithC t := rfl
  have hcnt := count_bounds t ti h0
  have hlen : (replaceTzWithC t).length + (tzPositions t).length = t.length :=
    length_replaceTzWithC t 0
  have hsplit := length_filter_split (tzPositions t) fun p : Nat => decide ((p : Int) < ti)
  have hrmem : ∀ x ∈ (tzPositions t).filter fun p : Nat => !decide ((p : Int) < ti),
      ti.toNat ≤ x ∧ x < t.length - 1 := by
    intro x hx
    rcases List.mem_filter.mp hx with ⟨hmem, hq⟩
    have hge : ¬((x : Int) < ti) := by
      intro hlt
      rw [decide_eq_true hlt] at hq
      simp at hq
    have hle := mem_tzPositions_le hmem
    omega
  have hrpw : ((tzPositions t).filter fun p : Nat =>
      !decide ((p : Int) < ti)).Pairwise (· < ·) :=
    (tzPositions_pairwise_lt t).sublist (List.filter_sublist _)
  have hr := length_le_sub _ ti.toNat (t.length - 1) hrmem hrpw
  rw [adjustedIndex_eq, hfst]
  constructor
  · omega
  · omega

theorem apply_preserves_invariant (f : Form) (b1 b2 : Bool)
    (h0 : 0 ≤ f.ti) (h1 : f.ti < (f.t.length : Int)) :
    0 ≤ (applyTransliterationReplacement f b1 b2).ti ∧
    (applyTransliterationReplacement f b1 b2).ti <
      (((applyTransliterationReplacement f b1 b2).t).length : Int) := by
  cases b1 <;> cases b2 <;>
    simp only [applyTransliterationReplacement, Bool.false_eq_true, if_neg, if_pos,
      not_false_iff, if_true, if_false]
  · exact ⟨h0, h1⟩
  · exact tz_preserves_invariant f.t f.ti h0 h1
  · rw [length_replaceChWithKh]
    exact ⟨h0, h1⟩
  · refine tz_preserves_invariant (replaceChWithKh f.t) f.ti h0 ?_
    rw [length_replaceChWithKh]
    exact h1

theorem variant_pipeline_preserves (v : FormData)
    (h0 : 0 ≤ v.ti) (h1 : v.ti < (v.t.length : Int)) :
    (0 ≤ (chVariant v).ti ∧ (chVariant v).ti < (((chVariant v).t).length : Int)) ∧
    (0 ≤ (tzVariant v).ti ∧ (tzVariant v).ti < (((tzVariant v).t).length : Int)) := by
  constructor
  · constructor
    · exact h0
    · show v.ti < _
      rw [show (chVariant v).t = replaceChWithKh v.t from rfl, length_replaceChWithKh]
      exact h1
  · exact tz_preserves_invariant v.t v.ti h0 h1

theorem apply_preserves_variant_invariant (f : Form) (b1 b2 : Bool)
    (hv : ∀ v ∈ f.variations.getD [], 0 ≤ v.ti ∧ v.ti < (v.t.length : Int)) :
    ∀ w ∈ (applyTransliterationReplacement f b1 b2).variations.getD [],
      0 ≤ w.ti ∧ w.ti < (w.t.length : Int) := by
  intro w hw
  rcases hvv : f.variations with _ | vs
  · cases b1 <;> cases b2 <;>
      simp [applyTransliterationReplacement, hvv] at hw
  · rw [hvv] at hv
    simp only [Option.getD_some] at hv
    simp only [applyTransliterationReplacement, hvv] at hw
    cases b1
    · cases b2
      · simp at hw
        exact hv w hw
      · simp at hw
        rcases hw with ⟨v, hvmem, rfl⟩
        exact (variant_pipeline_preserves v (hv v hvmem).1 (hv v hvmem).2).2
    · cases b2
      · simp at hw
        rcases hw with ⟨v, hvmem, rfl⟩
        exact (variant_pipeline_preserves v (hv v hvmem).1 (hv v hvmem).2).1
      · simp at hw
        rcases hw with ⟨v, hvmem, rfl⟩
        have hch := (variant_pipeline_preserves v (hv v hvmem).1 (hv v hvmem).2).1
        exact (variant_pipeline_preserves (chVariant v) hch.1 hch.2).2

theorem extract_ti_in_range (fd tr bold : DomNode) (pre post : List DomNode)
    (hfind : findFirst isTranscriptionDiv fd = some tr)
    (hch : tr.childrenOf = pre ++ bold :: post)
    (hbold : (findFirstWPIn isBoldTag tr tr.childrenOf).map Prod.fst = some bold)
    (hpre : bold ∉ pre)
    (hbtext : textContent bold ≠ [])
    (htrim : jsTrim (textContent tr) = textContent tr) :
    0 ≤ (extractFormData (some fd)).ti ∧
    (extractFormData (some fd)).ti < ((extractFormData (some fd)).t.length : Int) := by
  cases tr with
  | text s =>
    simp only [DomNode.childrenOf] at hch
    simp at hch
  | elem tg idA cls ch =>
    have hbold' : (findFirstWPIn isBoldTag (DomNode.elem tg idA cls ch) ch).map Prod.fst
        = some bold := by
      simpa [DomNode.childrenOf] using hbold
    have hti : (extractFormData (some fd)).ti =
        ((contentsBefore bold ch).length : Int) := by
      simp only [extractFormData, extractTransliteration, Option.some_bind, hfind,
        DomNode.childrenOf, hbold']
    have ht : (extractFormData (some fd)).t = textContent (DomNode.elem tg idA cls ch) := by
      simp only [extractFormData, extractTransliteration, Option.some_bind, hfind,
        DomNode.childrenOf, hbold', htrim]
    simp only [DomNode.childrenOf] at hch
    subst hch
    rw [hti, ht]
    rw [contentsBefore_append bold post pre hpre]
    show _ ∧ _ < ((textContentList (pre ++ bold :: post)).length : Int)
    rw [textContentList_append, textContentList]
    have hb : 0 < (textContent bold).length := List.length_pos.mpr hbtext
    constructor
    · omega
    · simp only [List.length_append]
      push_cast
      omega

/-- Claim C2, counterexample input: the transcription element's text
starts with two blanks before the stress marker, so the trimmed
transliteration is three characters long while the computed offset
counts the untrimmed prefix. -/
def c2TrDiv : DomNode :=
  DomNode.elem "div" "" ["transcription"]
    [DomNode.text "  ab".toList,
     DomNode.elem "b" "" [] [DomNode.text "c".toList]]

/-- Claim C2, counterexample form element wrapping `c2TrDiv`. -/
def c2FormDiv : DomNode := DomNode.elem "div" "" [] [c2TrDiv]

/-- Counterexample to claim C2 as stated: immediately after extraction
the invariant `0 ≤ ti < length t` can fail — here the transliteration
element contains a stress marker and a non-empty transliteration
(`abc`, length 3), yet the extracted offset is 4, because `t` is
trimmed while the offset counts the untrimmed text before the marker. -/
theorem C2_counterexample :
    (findFirst isBoldTag c2TrDiv).isSome = true ∧
    (extractFormData (some c2FormDiv)).t = "abc".toList ∧
    (extractFormData (some c2FormDiv)).t ≠ [] ∧
    (extractFormData (some c2FormDiv)).ti = 4 ∧
    ¬((extractFormData (some c2FormDiv)).ti <
        ((extractFormData (some c2FormDiv)).t.length : Int)) := by
  decide

/-- Claim C2 amended: the invariant `0 ≤ ti < length t` holds after
extraction by `extractFormData` provided the transliteration element's
flattened text carries no surrounding whitespace (trimming is the
identity on it), the stress marker is a direct child of the
transliteration element, is the first `b` found inside it and has
non-empty text; and for every form and every variation already
satisfying the invariant, `applyTransliterationReplacement` preserves
it under every combination of the two substitution flags. -/
theorem C2_ti_invariant :
    (∀ (fd tr bold : DomNode) (pre post : List DomNode),
      findFirst isTranscriptionDiv fd = some tr →
      tr.childrenOf = pre ++ bold :: post →
      (findFirstWPIn isBoldTag tr tr.childrenOf).map Prod.fst = some bold →
      bold ∉ pre →
      textContent bold ≠ [] →
      jsTrim (textContent tr) = textContent tr →
      0 ≤ (extractFormData (some fd)).ti ∧
        (extractFormData (some fd)).ti < ((extractFormData (some fd)).t.length : Int)) ∧
    (∀ (f : Form) (b1 b2 : Bool), 0 ≤ f.ti → f.ti < (f.t.length : Int) →
      0 ≤ (applyTransliterationReplacement f b1 b2).ti ∧
        (applyTransliterationReplacement f b1 b2).ti <
          (((applyTransliterationReplacement f b1 b2).t).length : Int)) ∧
    (∀ (f : Form) (b1 b2 : Bool),
      (∀ v ∈ f.variations.getD [], 0 ≤ v.ti ∧ v.ti < (v.t.length : Int)) →
      ∀ w ∈ (applyTransliterationReplacement f b1 b2).variations.getD [],
        0 ≤ w.ti ∧ w.ti < (w.t.length : Int)) :=
  ⟨fun fd tr bold pre post h1 h2 h3 h4 h5 h6 =>
      extract_ti_in_range fd tr bold pre post h1 h2 h3 h4 h5 h6,
   apply_preserves_invariant,
   apply_preserves_variant_invariant⟩

/-- Witness input for C2: transcription `a<b>b</b>c` with no
surrounding whitespace. -/
def c2WitnessTr : DomNode :=
  DomNode.elem "div" "" ["transcription"]
    [DomNode.text "a".toList,
     DomNode.elem "b" "" [] [DomNode.text "b".toList],
     DomNode.text "c".toList]

/-- Witness input for C2: the wrapping form element. -/
def c2WitnessDiv : DomNode := DomNode.elem "div" "" [] [c2WitnessTr]

/-- Witness input for C2: a form with transliteration `tzab`, offset
`2`, one variation `atz` with offset `1`. -/
def c2WitnessForm : Form :=
  { h := [], hn := [], t := "tzab".toList, ti := 2,
    variations := some [{ h := [], hn := [], t := "atz".toList, ti := 1 }] }

/-- Witness for the amended C2: each clause applied at a concrete
input. -/
theorem C2_witness :
    (0 ≤ (extractFormData (some c2WitnessDiv)).ti ∧
      (extractFormData (some c2WitnessDiv)).ti <
        ((extractFormData (some c2WitnessDiv)).t.length : Int)) ∧
    (0 ≤ (applyTransliterationReplacement c2WitnessForm true true).ti ∧
      (applyTransliterationReplacement c2WitnessForm true true).ti <
        (((applyTransliterationReplacement c2WitnessForm true true).t).length : Int)) ∧
    (∀ w ∈ (applyTransliterationReplacement c2WitnessForm true true).variations.getD [],
      0 ≤ w.ti ∧ w.ti < (w.t.length : Int)) :=
  ⟨C2_ti_invariant.1 c2WitnessDiv c2WitnessTr (DomNode.elem "b" "" [] [DomNode.text "b".toList])
      [DomNode.text "a".toList] [DomNode.text "c".toList]
      (by decide) (by decide) (by decide) (by decide) (by decide) (by decide),
   C2_ti_invariant.2.1 c2WitnessForm true true (by decide) (by decide),
   C2_ti_invariant.2.2 c2WitnessForm true true (by decide)⟩


/-! ### Lemmas about document search (claim C7) -/

theorem findFirst_mem (p : DomNode → Bool) :
    (∀ (parent n : DomNode), ∀ r : DomNode × DomNode, findFirstWP p parent n = some r →
      r.1 ∈ elemsOfNode n ∧ p r.1 = true) ∧
    (∀ (parent : DomNode) (cs : List DomNode), ∀ r : DomNode × DomNode,
      findFirstWPIn p parent cs = some r → r.1 ∈ elemsIn cs ∧ p r.1 = true) := by
  refine findFirstWP.mutual_induct p
    (fun parent n => ∀ r : DomNode × DomNode, findFirstWP p parent n = some r →
      r.1 ∈ elemsOfNode n ∧ p r.1 = true)
    (fun parent cs => ∀ r : DomNode × DomNode, findFirstWPIn p parent cs = some r →
      r.1 ∈ elemsIn cs ∧ p r.1 = true) ?_ ?_ ?_ ?_ ?_ ?_
  · intro _ d r h
    simp [findFirstWP] at h
  · intro parent t i cl ch hp r h
    rw [findFirstWP, if_pos hp] at h
    cases h
    exact ⟨List.mem_cons_self _ _, hp⟩
  · intro parent t i cl ch hp ih r h
    rw [findFirstWP, if_neg hp] at h
    rcases ih r h with ⟨hm, hpr⟩
    exact ⟨List.mem_cons_of_mem _ hm, hpr⟩
  · intro _ r h
    simp [findFirstWPIn] at h
  · intro parent n rest r0 hsome ih r h
    simp only [findFirstWPIn, hsome] at h
    cases h
    rcases ih r0 hsome with ⟨hm, hpr⟩
    exact ⟨by simpa [elemsIn] using Or.inl hm, hpr⟩
  · intro parent n rest hnone ih1 ih2 r h
    simp only [findFirstWPIn, hnone] at h
    rcases ih2 r h with ⟨hm, hpr⟩
    exact ⟨by simpa [elemsIn] using Or.inr hm, hpr⟩

theorem findFirst_some_mem {p : DomNode → Bool} {root n : DomNode}
    (h : findFirst p root = some n) :
    n ∈ elemsIn root.childrenOf ∧ p n = true := by
  unfold findFirst at h
  rcases Option.map_eq_some'.mp h with ⟨r, hr, hfst⟩
  cases hfst
  exact (findFirst_mem p).2 root root.childrenOf r hr

theorem findAll_eq_filter (p : DomNode → Bool) :
    (∀ n : DomNode, findAllNode p n = (elemsOfNode n).filter p) ∧
    (∀ cs : List DomNode, findAllIn p cs = (elemsIn cs).filter p) := by
  refine elemsOfNode.mutual_induct
    (fun n => findAllNode p n = (elemsOfNode n).filter p)
    (fun cs => findAllIn p cs = (elemsIn cs).filter p) ?_ ?_ ?_ ?_
  · intro d
    simp [findAllNode, elemsOfNode]
  · intro t i cl ch ih
    rw [findAllNode, elemsOfNode, List.filter_cons, ih]
    by_cases hp : p (DomNode.elem t i cl ch) = true
    · rw [if_pos hp, hp, if_pos rfl]
      rfl
    · rw [if_neg hp]
      have : p (DomNode.elem t i cl ch) = false := by
        cases hq : p (DomNode.elem t i cl ch)
        · rfl
        · exact absurd hq hp
      rw [this]
      simp
  · simp [findAllIn, elemsIn]
  · intro n rest ih1 ih2
    rw [findAllIn, elemsIn, List.filter_append, ih1, ih2]

theorem elems_trans :
    (∀ k : DomNode, ∀ n ∈ elemsOfNode k, ∀ m ∈ elemsIn n.childrenOf, m ∈ elemsOfNode k) ∧
    (∀ cs : List DomNode, ∀ n ∈ elemsIn cs, ∀ m ∈ elemsIn n.childrenOf, m ∈ elemsIn cs) := by
  refine elemsOfNode.mutual_induct
    (fun k => ∀ n ∈ elemsOfNode k, ∀ m ∈ elemsIn n.childrenOf, m ∈ elemsOfNode k)
    (fun cs => ∀ n ∈ elemsIn cs, ∀ m ∈ elemsIn n.childrenOf, m ∈ elemsIn cs) ?_ ?_ ?_ ?_
  · intro d n hn
    simp [elemsOfNode] at hn
  · intro t i cl ch ih n hn m hm
    rw [elemsOfNode] at hn ⊢
    rcases List.mem_cons.mp hn with rfl | hn'
    · simp only [DomNode.childrenOf] at hm
      exact List.mem_cons_of_mem _ hm
    · exact List.mem_cons_of_mem _ (ih n hn' m hm)
  · intro n hn
    simp [elemsIn] at hn
  · intro c rest ih1 ih2 n hn m hm
    rw [elemsIn] at hn ⊢
    rcases List.mem_append.mp hn with hn' | hn'
    · exact List.mem_append_left _ (ih1 n hn' m hm)
    · exact List.mem_append_right _ (ih2 n hn' m hm)

theorem findFirst_none_of_no_id (table : DomNode) (formId : String) (tg : String)
    (hid : ∀ n ∈ elemsIn table.childrenOf, n.idOf ≠ formId) :
    findFirst (fun n => n.tagOf == tg && n.idOf == formId) table = none := by
  cases h : findFirst (fun n => n.tagOf == tg && n.idOf == formId) table with
  | none => rfl
  | some n =>
    rcases findFirst_some_mem h with ⟨hmem, hp⟩
    rcases Bool.and_eq_true_iff.mp hp with ⟨_, hq⟩
    exact absurd (by simpa using hq) (hid n hmem)

theorem findFormDataAndTd_none (table : DomNode) (formId : String)
    (hid : ∀ n ∈ elemsIn table.childrenOf, n.idOf ≠ formId) :
    findFormDataAndTd table formId = none := by
  rw [findFormDataAndTd, findFirst_none_of_no_id table formId "td" hid,
    findFirst_none_of_no_id table formId "div" hid]

/-- Claim C7: a grammatical slot whose identifier resolves to no
element of the document — including when the labeled row gating the
slot is absent — comes back as the all-empty form, and the extraction
is total (no error path exists): for the verb slot pattern the result
is exactly `emptyFormValue` whether the gating row is missing or the
identifier is absent from the table, and for the noun `Absolute state`
branch both slots default to the empty form when the row is absent
while an absent `s` identifier leaves every field of the singular slot
empty. -/
theorem C7_missing_slot_defaults (table : DomNode) (label : List Char) (formId : String)
    (fU fM : Bool) :
    (findRowContaining table label = none →
      extractVerbSlot table label formId fU fM = emptyFormValue) ∧
    ((∀ n ∈ elemsIn table.childrenOf, n.idOf ≠ formId) →
      extractVerbSlot table label formId fU fM = emptyFormValue) ∧
    (findRowEq table "Absolute state".toList = none →
      extractNounAbsolute table = (emptyFormValue, emptyFormValue)) ∧
    ((∀ n ∈ elemsIn table.childrenOf, n.idOf ≠ "s") →
      (extractNounAbsolute table).1.h = [] ∧ (extractNounAbsolute table).1.hn = [] ∧
      (extractNounAbsolute table).1.t = [] ∧ (extractNounAbsolute table).1.ti = 0) := by
  refine ⟨?_, ?_, ?_, ?_⟩
  · intro h
    rw [extractVerbSlot, h]
  · intro hid
    rw [extractVerbSlot]
    cases findRowContaining table label with
    | none => rfl
    | some row =>
      rw [findFormDataAndTd_none table formId hid]
  · intro h
    rw [extractNounAbsolute, h]
  · intro hid
    cases hrow : findRowEq table "Absolute state".toList with
    | none =>
      rw [extractNounAbsolute, hrow]
      exact ⟨rfl, rfl, rfl, rfl⟩
    | some row =>
      have hrowmem : row ∈ elemsIn table.childrenOf := by
        have hmem := List.mem_of_find?_eq_some hrow
        rw [(findAll_eq_filter isTrRow).2] at hmem
        exact (List.mem_filter.mp hmem).1
      have hdiv : ((findAllIn isConjTd row.childrenOf)[0]?).bind
          (findFirst fun n => n.tagOf == "div" && n.idOf == "s") = none := by
        cases htd : (findAllIn isConjTd row.childrenOf)[0]? with
        | none => rfl
        | some tdn =>
          have htdmem : tdn ∈ elemsIn row.childrenOf := by
            have h1 : tdn ∈ findAllIn isConjTd row.childrenOf := by
              rcases List.getElem?_eq_some_iff.mp htd with ⟨hlt, hg⟩
              exact hg ▸ List.getElem_mem hlt
            rw [(findAll_eq_filter isConjTd).2] at h1
            exact (List.mem_filter.mp h1).1
          have htdmem' : tdn ∈ elemsIn table.childrenOf :=
            elems_trans.2 table.childrenOf row hrowmem tdn htdmem
          rw [Option.some_bind]
          cases hfd : findFirst (fun n => n.tagOf == "div" && n.idOf == "s") tdn with
          | none => rfl
          | some d =>
            rcases findFirst_some_mem hfd with ⟨hdm, hp⟩
            rcases Bool.and_eq_true_iff.mp hp with ⟨_, hq⟩
            have hdm' : d ∈ elemsIn table.childrenOf :=
              elems_trans.2 table.childrenOf tdn htdmem' d hdm
            exact absurd (by simpa using hq) (hid d hdm')
      simp only [extractNounAbsolute, hrow]
      rw [hdiv]
      exact ⟨rfl, rfl, rfl, rfl⟩

/-- Witness input for C7: a table with a single unrelated row and no
slot identifiers. -/
def c7Table : DomNode :=
  DomNode.elem "table" "" ["conjugation-table"]
    [DomNode.elem "tr" "" []
      [DomNode.elem "th" "" [] [DomNode.text "Other".toList]]]

/-- Witness for C7 at the concrete table `c7Table`, with the past
tense row label and the `PERF-1s` identifier. -/
theorem C7_witness :
    (extractVerbSlot c7Table "Past tense".toList "PERF-1s" false false = emptyFormValue) ∧
    (extractVerbSlot c7Table "Past tense".toList "PERF-1s" false false = emptyFormValue) ∧
    (extractNounAbsolute c7Table = (emptyFormValue, emptyFormValue)) ∧
    ((extractNounAbsolute c7Table).1.h = [] ∧ (extractNounAbsolute c7Table).1.hn = [] ∧
      (extractNounAbsolute c7Table).1.t = [] ∧ (extractNounAbsolute c7Table).1.ti = 0) :=
  ⟨(C7_missing_slot_defaults c7Table "Past tense".toList "PERF-1s" false false).1 (by decide),
   (C7_missing_slot_defaults c7Table "Past tense".toList "PERF-1s" false false).2.1 (by decide),
   (C7_missing_slot_defaults c7Table "Past tense".toList "PERF-1s" false false).2.2.1 (by decide),
   (C7_missing_slot_defaults c7Table "Past tense".toList "PERF-1s" false false).2.2.2 (by decide)⟩


/-! ### Lemmas about the boilerplate filter (claim C6) -/

/-- Bool test for an element node with tag `div`. -/
def isDivTagNode (n : DomNode) : Bool := n.isElemNode && n.tagOf == "div"

theorem filterLoop_skips_ahead (filterText : List Char) :
    ∀ ds rest : List DomNode, (∀ x ∈ ds, isDivTagNode x = true) →
      filterLoop filterText (ds ++ rest) false =
        (ds.map processDiv).flatten ++ filterLoop filterText rest false := by
  intro ds
  induction ds with
  | nil => intro rest _; simp
  | cons d ds' ih =>
    intro rest hall
    have hd := hall d (List.mem_cons_self _ _)
    cases d with
    | text _ => simp [isDivTagNode, DomNode.isElemNode] at hd
    | elem t i cl ch =>
      have ht : t = "div" := by
        simpa [isDivTagNode, DomNode.isElemNode, DomNode.tagOf] using hd
      subst ht
      rw [List.cons_append, filterLoop, if_pos (by simp)]
      rw [ih rest fun x hx => hall x (List.mem_cons_of_mem _ hx)]
      simp [List.append_assoc]

/-- Claim C6: an auxiliary panel extracted with the modern-usage
filter set to true whose content contains the fixed sentence has that
sentence and the single variant block immediately following it
suppressed — element nodes after the fragment are skipped until the
next non-empty text node — while the variant blocks before the
sentence and those after that next text node are extracted, in
document order. -/
theorem C6_modern_usage_filter (i1 i2 : String) (cl1 cl2 : List String)
    (as cs : List DomNode) (b : DomNode) (s r : List Char)
    (hcl : cl2.contains "aux-forms" = true)
    (has : ∀ x ∈ as, isDivTagNode x = true)
    (hcs : ∀ x ∈ cs, isDivTagNode x = true)
    (hb : isDivTagNode b = true)
    (hs : containsSeq MODERN_FRAGMENT (jsTrim s) = true)
    (hr1 : containsSeq MODERN_FRAGMENT (jsTrim r) = false)
    (hr2 : (jsTrim r).isEmpty = false)
    (hct : containsSeq MODERN_FRAGMENT (jsTrim (textContent
      (DomNode.elem "div" i2 cl2 (as ++ DomNode.text s :: b :: DomNode.text r :: cs))))
      = true) :
    extractVariations (some (DomNode.elem "td" i1 cl1
        [DomNode.elem "div" i2 cl2 (as ++ DomNode.text s :: b :: DomNode.text r :: cs)]))
        false true
      = (as.map processDiv).flatten ++ (cs.map processDiv).flatten := by
  have hdivs : filterLoop MODERN_FRAGMENT cs false = (cs.map processDiv).flatten := by
    have h := filterLoop_skips_ahead MODERN_FRAGMENT cs [] hcs
    simpa [filterLoop] using h
  have haux : findFirst isAuxFormsDiv (DomNode.elem "td" i1 cl1
      [DomNode.elem "div" i2 cl2 (as ++ DomNode.text s :: b :: DomNode.text r :: cs)])
      = some (DomNode.elem "div" i2 cl2 (as ++ DomNode.text s :: b :: DomNode.text r :: cs)) := by
    rw [findFirst, DomNode.childrenOf, findFirstWPIn, findFirstWP,
      if_pos (by simp [isAuxFormsDiv, DomNode.tagOf, DomNode.hasClass]; simpa using hcl)]
    rfl
  simp only [extractVariations, haux, Option.isSome_some, Bool.or_true, if_pos,
    Option.isNone_some, Bool.false_and, Bool.false_eq_true, if_neg, not_false_iff,
    if_true, if_false, hct, Bool.and_true, Bool.and_false, Bool.true_and,
    Bool.not_true, Bool.not_false, DomNode.childrenOf]
  rw [filterLoop_skips_ahead MODERN_FRAGMENT as (DomNode.text s :: b :: DomNode.text r :: cs) has]
  cases b with
  | text _ => simp [isDivTagNode, DomNode.isElemNode] at hb
  | elem tb ib clb chb =>
    have htb : tb = "div" := by
      simpa [isDivTagNode, DomNode.isElemNode, DomNode.tagOf] using hb
    subst htb
    simp [filterLoop, hs, hr1, hr2, hdivs]

/-- Witness inputs for C6: one variant block before the sentence, one
suppressed block after it, one after the resetting text node. -/
def c6DivA : DomNode :=
  DomNode.elem "div" "" [] [DomNode.elem "span" "" ["menukad"] [DomNode.text "aa".toList]]

/-- Witness input for C6: the block directly after the sentence. -/
def c6DivB : DomNode :=
  DomNode.elem "div" "" [] [DomNode.elem "span" "" ["menukad"] [DomNode.text "bb".toList]]

/-- Witness input for C6: the block after the next text node. -/
def c6DivC : DomNode :=
  DomNode.elem "div" "" [] [DomNode.elem "span" "" ["menukad"] [DomNode.text "cc".toList]]

/-- Witness for C6: at the concrete panel, the suppressed block is
dropped and the flanking blocks are extracted in document order. -/
theorem C6_witness :
    extractVariations (some (DomNode.elem "td" "" ["conj-td"]
        [DomNode.elem "div" "" ["aux-forms"]
          [c6DivA, DomNode.text MODERN_FRAGMENT, c6DivB, DomNode.text " more ".toList,
           c6DivC]])) false true
      = ([c6DivA].map processDiv).flatten ++ ([c6DivC].map processDiv).flatten :=
  C6_modern_usage_filter "" "" ["conj-td"] ["aux-forms"] [c6DivA] [c6DivC] c6DivB
    MODERN_FRAGMENT " more ".toList (by decide) (by decide) (by decide) (by decide)
    (by decide) (by decide) (by decide) (by decide)


end Pealim

